import Mathlib

/-!
Shallow embedding of the incremental NDJSON-over-SSE stream parser of the
Turkish-morphology streaming page (`runStream` and its nested helpers
`extractJsonObjects`, `handleTextChunk`, `emitObject`, the SSE frame field
loop, and the surrounding catch handler).

Strings are modelled as `List Char` (one element per buffer position, the
role played by UTF-16 code units in the original; none of the verified
properties depend on characters outside the basic plane).
-/

set_option maxHeartbeats 1000000
set_option autoImplicit false

namespace RoastToast

mutual

/-- JSON values, mutually with field lists and element lists (a nested
inductive is avoided so that structural mutual recursion and induction stay
simple).  Numbers are kept as their source lexeme, which is all the scanner
and the emission layer ever look at. -/
inductive Json where
| null : Json
| bool (b : Bool) : Json
| num (lex : List Char) : Json
| str (s : List Char) : Json
| arr (items : JsonItems) : Json
| obj (fields : JsonFields) : Json

/-- Element list of a JSON array. -/
inductive JsonItems where
| nil : JsonItems
| cons (hd : Json) (tl : JsonItems) : JsonItems

/-- Field list of a JSON object (key/value pairs in textual order). -/
inductive JsonFields where
| nil : JsonFields
| cons (key : List Char) (val : Json) (tl : JsonFields) : JsonFields

end

deriving instance DecidableEq for Json, JsonItems, JsonFields

end RoastToast

namespace RoastToast

/-- Escape one character for inclusion in a JSON string literal: a quote or
a backslash is preceded by a backslash, anything else stands for itself. -/
def escChar (c : Char) : List Char :=
  if c = '"' ∨ c = '\\' then ['\\', c] else [c]

/-- Escape a whole string body. -/
def escStr (s : List Char) : List Char :=
  match s with
  | [] => []
  | c :: cs => escChar c ++ escStr cs

/-- Serialized JSON string literal: opening quote, escaped body, closing
quote. -/
def serStr (s : List Char) : List Char :=
  '"' :: escStr s ++ ['"']

mutual

/-- Serialize a JSON value to its text. -/
def ser : Json → List Char
  | .null => 'n' :: 'u' :: 'l' :: 'l' :: []
  | .bool true => 't' :: 'r' :: 'u' :: 'e' :: []
  | .bool false => 'f' :: 'a' :: 'l' :: 's' :: 'e' :: []
  | .num lex => lex
  | .str s => serStr s
  | .arr .nil => '[' :: [']']
  | .arr (.cons x tl) => '[' :: ser x ++ serItemsRest tl ++ [']']
  | .obj .nil => '{' :: ['}']
  | .obj (.cons k v tl) => '{' :: serStr k ++ ':' :: ser v ++ serFieldsRest tl ++ ['}']

/-- Serialize the remaining array elements, each preceded by a comma. -/
def serItemsRest : JsonItems → List Char
  | .nil => []
  | .cons x tl => ',' :: ser x ++ serItemsRest tl

/-- Serialize the remaining object fields, each preceded by a comma. -/
def serFieldsRest : JsonFields → List Char
  | .nil => []
  | .cons k v tl => ',' :: serStr k ++ ':' :: ser v ++ serFieldsRest tl

end

/-- Characters a JSON number lexeme may consist of. -/
def numChar (c : Char) : Bool :=
  c.isDigit || c = '-' || c = '+' || c = '.' || c = 'e' || c = 'E'

mutual

/-- Well-formedness of a value for serialization purposes: number lexemes
are nonempty and made of number characters only.  String bodies and keys
are unconstrained (escaping handles them). -/
def Json.wf : Json → Bool
  | .null => true
  | .bool _ => true
  | .num lex => !lex.isEmpty && lex.all numChar
  | .str _ => true
  | .arr items => JsonItems.wf items
  | .obj fields => JsonFields.wf fields

/-- Well-formedness of array elements. -/
def JsonItems.wf : JsonItems → Bool
  | .nil => true
  | .cons x tl => Json.wf x && JsonItems.wf tl

/-- Well-formedness of object fields. -/
def JsonFields.wf : JsonFields → Bool
  | .nil => true
  | .cons _ v tl => Json.wf v && JsonFields.wf tl

end

/-- Scanner state of `extractJsonObjects`: the `inStr`/`esc`/`depth`
flags of the source loop; `acc` models the `start` marker (it is `some l`
exactly when `start !== -1`, with `l` the characters of
`textBuf.slice(start, i)` in reverse); `pending` models the part of
`textBuf` already scanned but not yet consumed by an emission (in
reverse). -/
structure ScanSt where
  inStr : Bool
  esc : Bool
  depth : Nat
  acc : Option (List Char)
  pending : List Char
deriving Repr

/-- Extend the candidate-object slice by one character when a start marker
is set. -/
def pushAcc (a : Option (List Char)) (c : Char) : Option (List Char) :=
  match a with
  | some l => some (c :: l)
  | none => none

/-- One character of the `extractJsonObjects` scan loop, mirroring the
source's branch structure: string mode with escape tracking first, then
quote, open brace, close brace (with the depth-zero emission check), and
the default fall-through. -/
def scanStep : ScanSt → Char → ScanSt × Option (List Char)
  | ⟨true, true, d, a, p⟩, c => (⟨true, false, d, pushAcc a c, c :: p⟩, none)
  | ⟨true, false, d, a, p⟩, c =>
    if c = '\\' then (⟨true, true, d, pushAcc a c, c :: p⟩, none)
    else if c = '"' then (⟨false, false, d, pushAcc a c, c :: p⟩, none)
    else (⟨true, false, d, pushAcc a c, c :: p⟩, none)
  | ⟨false, e, d, a, p⟩, c =>
    if c = '"' then (⟨true, e, d, pushAcc a c, c :: p⟩, none)
    else if c = '{' then
      (⟨false, e, d + 1,
        (match a with
         | some l => some (c :: l)
         | none => if d = 0 then some [c] else none), c :: p⟩, none)
    else if c = '}' then
      let d' := if 0 < d then d - 1 else d
      match a with
      | some l =>
        if d' = 0 then (⟨false, e, d', none, []⟩, some (c :: l).reverse)
        else (⟨false, e, d', some (c :: l), c :: p⟩, none)
      | none => (⟨false, e, d', none, c :: p⟩, none)
    else (⟨false, e, d, pushAcc a c, c :: p⟩, none)

/-- Run the scan loop over a character list, collecting emitted candidate
object texts in order. -/
def scanFull : ScanSt → List Char → ScanSt × List (List Char)
  | st, [] => (st, [])
  | st, c :: cs =>
    match scanStep st c with
    | (st1, some o) =>
      let r := scanFull st1 cs
      (r.1, o :: r.2)
    | (st1, none) => scanFull st1 cs

/-- Initial scanner state (`i = 0`, `start = -1`, `depth = 0`, not in a
string). -/
def initSt : ScanSt := ⟨false, false, 0, none, []⟩

/-- The 512 KiB buffer cap of `extractJsonObjects` (`MAX_BUF`). -/
def MAX_BUF : Nat := 512 * 1024

/-- Apply the safety cap: keep only the last `MAX_BUF` characters
(`textBuf.slice(-MAX_BUF)`). -/
def capBuf (r : List Char) : List Char :=
  if MAX_BUF < r.length then r.drop (r.length - MAX_BUF) else r

/-- Model of `extractJsonObjects` (source lines 191–245) acting on
`textBuf`: returns the candidate object texts pushed to `toEmit` in order,
and the new value of `textBuf` after consumption and the size cap. -/
def extractJsonObjects (textBuf : List Char) : List (List Char) × List Char :=
  let r := scanFull initSt textBuf
  (r.2, capBuf r.1.pending.reverse)

/-- Model of `handleTextChunk` (source lines 247–252) at the `textBuf`
level: an empty chunk is ignored, otherwise the chunk is appended and
extraction runs.  Returns the candidates emitted by this call and the new
buffer. -/
def feedChunk (buf chunk : List Char) : List (List Char) × List Char :=
  if chunk = [] then ([], buf)
  else extractJsonObjects (buf ++ chunk)

/-- Feed a sequence of text chunks through `feedChunk`, accumulating every
candidate emitted along the way. -/
def feedAll : List (List Char) → List Char → List (List Char) × List Char
  | [], buf => ([], buf)
  | c :: cs, buf =>
    let r := feedChunk buf c
    let r2 := feedAll cs r.2
    (r.1 ++ r2.1, r2.2)

/-! JSON.parse model.  The platform's `JSON.parse` is external to the
repository; it is modelled here as a recursive-descent parser over the
standard JSON grammar, with a fuel argument to make the recursion
structural. -/

/-- JSON whitespace. -/
def isJsonWs (c : Char) : Bool :=
  c = ' ' || c = '\t' || c = '\n' || c = '\r'

/-- Drop leading JSON whitespace. -/
def skipWs (cs : List Char) : List Char :=
  cs.dropWhile isJsonWs

/-- Value of a hexadecimal digit. -/
def hexVal (c : Char) : Option Nat :=
  if c.isDigit then some (c.toNat - 48)
  else if 'a' ≤ c ∧ c ≤ 'f' then some (c.toNat - 87)
  else if 'A' ≤ c ∧ c ≤ 'F' then some (c.toNat - 55)
  else none

/-- Decode a single-character JSON escape. -/
def escDecode (c : Char) : Option Char :=
  if c = '"' then some '"'
  else if c = '\\' then some '\\'
  else if c = '/' then some '/'
  else if c = 'b' then some '\x08'
  else if c = 'f' then some '\x0C'
  else if c = 'n' then some '\n'
  else if c = 'r' then some '\r'
  else if c = 't' then some '\t'
  else none

/-- Parse the body of a JSON string literal (the opening quote already
consumed), returning the decoded characters and the rest of the input. -/
def pStrBody : List Char → Option (List Char × List Char)
  | [] => none
  | '"' :: rest => some ([], rest)
  | '\\' :: 'u' :: h1 :: h2 :: h3 :: h4 :: rest =>
    (match hexVal h1, hexVal h2, hexVal h3, hexVal h4 with
     | some a, some b, some c, some d =>
       (pStrBody rest).map (fun r => (Char.ofNat (((a * 16 + b) * 16 + c) * 16 + d) :: r.1, r.2))
     | _, _, _, _ => none)
  | '\\' :: e :: rest =>
    (match escDecode e with
     | some c => (pStrBody rest).map (fun r => (c :: r.1, r.2))
     | none => none)
  | c :: rest => (pStrBody rest).map (fun r => (c :: r.1, r.2))

/-- Parse a JSON number, returning its lexeme and the rest of the input. -/
def pNum (cs : List Char) : Option (List Char × List Char) :=
  let p := match cs with
    | '-' :: r => (['-'], r)
    | _ => (([] : List Char), cs)
  let ds := p.2.takeWhile Char.isDigit
  let r1 := p.2.dropWhile Char.isDigit
  if ds = [] then none
  else if 1 < ds.length ∧ ds.headI = '0' then none
  else
    let fr : Option (List Char × List Char) :=
      match r1 with
      | '.' :: r2 =>
        let fs := r2.takeWhile Char.isDigit
        let r3 := r2.dropWhile Char.isDigit
        if fs = [] then none else some ('.' :: fs, r3)
      | _ => some ([], r1)
    match fr with
    | none => none
    | some (fchars, r3) =>
      let ex : Option (List Char × List Char) :=
        match r3 with
        | e :: r4 =>
          if e = 'e' ∨ e = 'E' then
            let sgn := match r4 with
              | s :: r5 => if s = '+' ∨ s = '-' then ([s], r5) else (([] : List Char), r4)
              | [] => (([] : List Char), r4)
            let es := sgn.2.takeWhile Char.isDigit
            let r6 := sgn.2.dropWhile Char.isDigit
            if es = [] then none else some (e :: sgn.1 ++ es, r6)
          else some ([], r3)
        | [] => some ([], r3)
      match ex with
      | none => none
      | some (echars, r6) => some (p.1 ++ ds ++ fchars ++ echars, r6)

/-- What the fueled parser is currently parsing. -/
inductive PTask where
| val : PTask
| objBody : PTask
| objMore : PTask
| arrBody : PTask
| arrMore : PTask

/-- Result of one fueled parsing task. -/
inductive PRes where
| v (j : Json) : PRes
| fs (f : JsonFields) : PRes
| it (t : JsonItems) : PRes

/-- Fueled recursive-descent JSON parsing.  `val` parses one value;
`objBody`/`objMore` parse an object body after `{` (respectively after a
comma, where a field is mandatory); `arrBody`/`arrMore` likewise for
arrays. -/
def pRun : Nat → PTask → List Char → Option (PRes × List Char)
  | 0, _, _ => none
  | Nat.succ fuel, PTask.val, cs =>
    (match skipWs cs with
     | '{' :: r =>
       (match pRun fuel PTask.objBody r with
        | some (PRes.fs f, r2) => some (PRes.v (Json.obj f), r2)
        | _ => none)
     | '[' :: r =>
       (match pRun fuel PTask.arrBody r with
        | some (PRes.it t, r2) => some (PRes.v (Json.arr t), r2)
        | _ => none)
     | '"' :: r =>
       (match pStrBody r with
        | some (s, r2) => some (PRes.v (Json.str s), r2)
        | none => none)
     | 't' :: 'r' :: 'u' :: 'e' :: r => some (PRes.v (Json.bool true), r)
     | 'f' :: 'a' :: 'l' :: 's' :: 'e' :: r => some (PRes.v (Json.bool false), r)
     | 'n' :: 'u' :: 'l' :: 'l' :: r => some (PRes.v Json.null, r)
     | cs2 =>
       (match pNum cs2 with
        | some (lex, r) => some (PRes.v (Json.num lex), r)
        | none => none))
  | Nat.succ fuel, PTask.objBody, cs =>
    (match skipWs cs with
     | '}' :: r => some (PRes.fs JsonFields.nil, r)
     | _ => pRun fuel PTask.objMore cs)
  | Nat.succ fuel, PTask.objMore, cs =>
    (match skipWs cs with
     | '"' :: r =>
       (match pStrBody r with
        | some (k, r2) =>
          (match skipWs r2 with
           | ':' :: r3 =>
             (match pRun fuel PTask.val r3 with
              | some (PRes.v jv, r4) =>
                (match skipWs r4 with
                 | ',' :: r5 =>
                   (match pRun fuel PTask.objMore r5 with
                    | some (PRes.fs f, r6) => some (PRes.fs (JsonFields.cons k jv f), r6)
                    | _ => none)
                 | '}' :: r5 => some (PRes.fs (JsonFields.cons k jv JsonFields.nil), r5)
                 | _ => none)
              | _ => none)
           | _ => none)
        | none => none)
     | _ => none)
  | Nat.succ fuel, PTask.arrBody, cs =>
    (match skipWs cs with
     | ']' :: r => some (PRes.it JsonItems.nil, r)
     | _ => pRun fuel PTask.arrMore cs)
  | Nat.succ fuel, PTask.arrMore, cs =>
    (match pRun fuel PTask.val cs with
     | some (PRes.v jv, r) =>
       (match skipWs r with
        | ',' :: r2 =>
          (match pRun fuel PTask.arrMore r2 with
           | some (PRes.it t, r3) => some (PRes.it (JsonItems.cons jv t), r3)
           | _ => none)
        | ']' :: r2 => some (PRes.it (JsonItems.cons jv JsonItems.nil), r2)
        | _ => none)
     | _ => none)

/-- Model of `JSON.parse`: parse one value, require only whitespace after
it, reject anything else (`none` models a thrown `SyntaxError`). -/
def parseJson (cs : List Char) : Option Json :=
  match pRun (4 * cs.length + 4) PTask.val cs with
  | some (PRes.v j, rest) => if skipWs rest = [] then some j else none
  | _ => none

/-! Session state and event dispatch. -/

/-- The React state touched by `runStream`: the emitted `entries` list,
the `error` message, the `loading` flag, and the extractor's `textBuf`. -/
structure Session where
  entries : List Json
  error : Option (List Char)
  loading : Bool
  textBuf : List Char

/-- Last binding of a key in an object's field list (later duplicate keys
win, as under `JSON.parse`). -/
def JsonFields.lookupLast : JsonFields → List Char → Option Json
  | .nil, _ => none
  | .cons k v tl, key =>
    match JsonFields.lookupLast tl key with
    | some r => some r
    | none => if k = key then some v else none

/-- JavaScript property read `j.key` on a parsed JSON value: defined only
on objects, `undefined` (here `none`) otherwise. -/
def jsGet (j : Json) (key : List Char) : Option Json :=
  match j with
  | .obj fs => fs.lookupLast key
  | _ => none

/-- Model of `emitObject` (source lines 184–189): objects whose `type` is
`"entry"` are appended to `entries`; a `type` of `"done"` clears
`loading`; anything else — including non-objects and other `type`
values — is dropped. -/
def emitObject (s : Session) (j : Json) : Session :=
  match jsGet j ("type".data) with
  | some (Json.str t) =>
    if t = "entry".data then { s with entries := s.entries ++ [j] }
    else if t = "done".data then { s with loading := false }
    else s
  | _ => s

/-- Run one `extractJsonObjects` pass at the session level: extract
candidates from `textBuf`, parse each and hand it to `emitObject`
(parse failures are silently discarded), and store the capped remainder
back into `textBuf`. -/
def runExtract (s : Session) : Session :=
  let r := extractJsonObjects s.textBuf
  let s1 := r.1.foldl
    (fun st c =>
      match parseJson c with
      | some j => emitObject st j
      | none => st) s
  { s1 with textBuf := r.2 }

/-- Model of `handleTextChunk` (source lines 247–252) at the session
level. -/
def handleTextChunk (s : Session) (chunk : List Char) : Session :=
  if chunk = [] then s
  else runExtract { s with textBuf := s.textBuf ++ chunk }

/-- Fold a sequence of text chunks through `handleTextChunk`. -/
def feedChunks (s : Session) (chunks : List (List Char)) : Session :=
  chunks.foldl handleTextChunk s

/-- Split frame text on `\r?\n` (the second argument accumulates the
current line in reverse). -/
def splitLinesAux : List Char → List Char → List (List Char)
  | [], cur => [cur.reverse]
  | '\r' :: '\n' :: rest, cur => cur.reverse :: splitLinesAux rest []
  | '\n' :: rest, cur => cur.reverse :: splitLinesAux rest []
  | c :: rest, cur => splitLinesAux rest (c :: cur)

/-- JavaScript `String.prototype.trim` over the whitespace the frames can
contain. -/
def trimWs (cs : List Char) : List Char :=
  ((cs.dropWhile Char.isWhitespace).reverse.dropWhile Char.isWhitespace).reverse

/-- Model of the frame field loop (source lines 264–270): the last
`event:` line wins, all `data:` lines are trimmed and concatenated. -/
def parseFrameFields (frame : List Char) : Option (List Char) × List Char :=
  (splitLinesAux frame []).foldl
    (fun st line =>
      if List.isPrefixOf "event:".data line then (some (trimWs (line.drop 6)), st.2)
      else if List.isPrefixOf "data:".data line then (st.1, st.2 ++ trimWs (line.drop 5))
      else st)
    (none, [])

/-- Model of the per-frame dispatch (source lines 272–344), given the
already-extracted event name and data payload.  Non-string `delta`
payloads are not modelled (the upstream contract makes `delta` a string;
the source would coerce other truthy values). -/
def dispatchData (s : Session) (eventType : Option (List Char)) (dataStr : List Char) : Session :=
  if dataStr = [] then s
  else if dataStr = "[DONE]".data then { s with loading := false }
  else
    match parseJson dataStr with
    | none => s
    | some evt =>
      match eventType with
      | none => s
      | some et =>
        if et = "response.output_text.delta".data then
          match jsGet evt ("delta".data) with
          | some (Json.str d) => if d = [] then s else handleTextChunk s d
          | _ => s
        else if et = "response.content_part.delta".data then
          match jsGet evt ("delta".data) with
          | some dj =>
            (match jsGet dj ("type".data), jsGet dj ("text".data) with
             | some (Json.str ty), some (Json.str tx) =>
               if ty = "output_text.delta".data then handleTextChunk s tx else s
             | _, _ => s)
          | none => s
        else if et = "response.output_text.done".data then runExtract s
        else if et = "response.completed".data then
          let s1 := runExtract s
          { s1 with loading := false }
        else if et = "response.error".data then
          let msg := match jsGet evt ("error".data) with
            | some ej =>
              (match jsGet ej ("message".data) with
               | some (Json.str m) => if m = [] then "Stream error".data else m
               | _ => "Stream error".data)
            | none => "Stream error".data
          { s with error := some msg, loading := false }
        else s

/-- Process one complete SSE frame: extract its fields, then dispatch. -/
def dispatchFrame (s : Session) (frame : List Char) : Session :=
  let f := parseFrameFields frame
  dispatchData s f.1 f.2

/-- Model of the guards at the top of `runStream` (source lines 97–107):
a falsy (absent or empty) credential or a query that trims to empty
returns before any state is touched; otherwise the session state is reset
and the request is issued (the returned flag). -/
def runStreamStart (apiKey : Option (List Char)) (query : List Char) (s : Session) :
    Session × Bool :=
  if apiKey = none ∨ apiKey = some [] then (s, false)
  else if trimWs query = [] then (s, false)
  else ({ s with entries := [], error := none, loading := true }, true)

/-- A JavaScript thrown value as the catch handler inspects it: whether it
is an object, its `name` property when that is a string, whether it is an
`Error` instance with its `message`, and its `String(...)` rendering. -/
structure JsThrown where
  isObject : Bool
  name : Option (List Char)
  isError : Bool
  message : List Char
  stringRepr : List Char

/-- Model of the catch handler of `runStream` (source lines 347–358): an
`AbortError` returns with no state change; anything else records an error
message and clears `loading`. -/
def handleCatch (s : Session) (e : JsThrown) : Session :=
  if e.isObject ∧ e.name = some ("AbortError".data) then s
  else { s with
         error := some (if e.isError then e.message else e.stringRepr),
         loading := false }

/-! Scanner lemmas. -/

/-- Length of the candidate slice tracked by `acc`. -/
def accLen : Option (List Char) → Nat
  | some l => l.length
  | none => 0

theorem accLen_pushAcc (a : Option (List Char)) (c : Char) :
    accLen (pushAcc a c) ≤ accLen a + 1 := by
  cases a <;> simp [pushAcc, accLen]

/-- Every step of the scanner either pushes the character onto `pending`
(leaving everything else independent of `pending`), or emits a candidate
whose length is one more than the tracked slice and resets `acc` and
`pending`. -/
theorem scanStep_shape (i e : Bool) (d : Nat) (a : Option (List Char)) (c : Char) :
    (∃ i' e' d' a', accLen a' ≤ accLen a + 1 ∧
      ∀ q, scanStep ⟨i, e, d, a, q⟩ c = (⟨i', e', d', a', c :: q⟩, none)) ∨
    (∃ i' e' d' o, o.length = accLen a + 1 ∧
      ∀ q, scanStep ⟨i, e, d, a, q⟩ c = (⟨i', e', d', none, []⟩, some o)) := by
  cases i with
  | true =>
    cases e with
    | true =>
      exact Or.inl ⟨true, false, d, pushAcc a c, accLen_pushAcc a c, fun q => rfl⟩
    | false =>
      by_cases h1 : c = '\\'
      · subst h1
        exact Or.inl ⟨true, true, d, pushAcc a '\\', accLen_pushAcc a '\\', fun q => by
          simp [scanStep]⟩
      · by_cases h2 : c = '"'
        · subst h2
          exact Or.inl ⟨false, false, d, pushAcc a '"', accLen_pushAcc a '"', fun q => by
            simp [scanStep, h1]⟩
        · exact Or.inl ⟨true, false, d, pushAcc a c, accLen_pushAcc a c, fun q => by
            simp [scanStep, h1, h2]⟩
  | false =>
    by_cases h1 : c = '"'
    · subst h1
      exact Or.inl ⟨true, e, d, pushAcc a '"', accLen_pushAcc a _, fun q => by
        simp [scanStep]⟩
    · by_cases h2 : c = '{'
      · subst h2
        refine Or.inl ⟨false, e, d + 1,
          (match a with
           | some l => some ('{' :: l)
           | none => if d = 0 then some ['{'] else none), ?_, fun q => by
            simp [scanStep]⟩
        cases a with
        | some l => simp [accLen]
        | none =>
          by_cases hd : d = 0 <;> simp [accLen, hd]
      · by_cases h3 : c = '}'
        · subst h3
          cases a with
          | none =>
            exact Or.inl ⟨false, e, if 0 < d then d - 1 else d, none, by simp [accLen],
              fun q => by simp [scanStep, h1, h2]⟩
          | some l =>
            by_cases hd : (if 0 < d then d - 1 else d) = 0
            · refine Or.inr ⟨false, e, if 0 < d then d - 1 else d, ('}' :: l).reverse, ?_,
                fun q => by simp only [scanStep]; simp [hd]⟩
              simp [accLen]
            · exact Or.inl ⟨false, e, if 0 < d then d - 1 else d, some ('}' :: l), by
                simp [accLen], fun q => by simp only [scanStep]; simp [hd]⟩
        · exact Or.inl ⟨false, e, d, pushAcc a c, accLen_pushAcc a c, fun q => by
            simp [scanStep, h1, h2, h3]⟩

theorem scanFull_nil (st : ScanSt) : scanFull st [] = (st, []) := rfl

theorem scanFull_cons_none (st st1 : ScanSt) (c : Char) (cs : List Char)
    (h : scanStep st c = (st1, none)) :
    scanFull st (c :: cs) = scanFull st1 cs := by
  simp [scanFull, h]

theorem scanFull_cons_some (st st1 : ScanSt) (c : Char) (cs o : List Char)
    (h : scanStep st c = (st1, some o)) :
    scanFull st (c :: cs) = ((scanFull st1 cs).1, o :: (scanFull st1 cs).2) := by
  simp [scanFull, h]

/-- The scan of a concatenation is the scan of the first part followed by
the scan of the second from the reached state. -/
theorem scanFull_append (xs : List Char) : ∀ (st : ScanSt) (ys : List Char),
    scanFull st (xs ++ ys) =
      ((scanFull (scanFull st xs).1 ys).1,
       (scanFull st xs).2 ++ (scanFull (scanFull st xs).1 ys).2) := by
  induction xs with
  | nil => intro st ys; simp [scanFull]
  | cons c cs ih =>
    intro st ys
    cases h : scanStep st c with
    | mk st1 em =>
      cases em with
      | some o =>
        rw [List.cons_append, scanFull_cons_some st st1 c (cs ++ ys) o h,
          scanFull_cons_some st st1 c cs o h, ih st1 ys]
        simp
      | none =>
        rw [List.cons_append, scanFull_cons_none st st1 c (cs ++ ys) h,
          scanFull_cons_none st st1 c cs h, ih st1 ys]

/-- Every candidate emitted while scanning `cs` is at most as long as `cs`
plus the slice already tracked on entry. -/
theorem scanFull_emit_length (cs : List Char) : ∀ (st : ScanSt) (o : List Char),
    o ∈ (scanFull st cs).2 → o.length ≤ cs.length + accLen st.acc := by
  induction cs with
  | nil => intro st o ho; simp [scanFull] at ho
  | cons c cs ih =>
    intro st o ho
    rcases st with ⟨i, e, d, a, p⟩
    rcases scanStep_shape i e d a c with ⟨i', e', d', a', hle, hstep⟩ |
      ⟨i', e', d', ob, hlen, hstep⟩
    · rw [scanFull_cons_none _ _ _ _ (hstep p)] at ho
      have := ih _ o ho
      simp only [accLen] at *
      simp only [List.length_cons]
      omega
    · rw [scanFull_cons_some _ _ _ _ _ (hstep p)] at ho
      rcases List.mem_cons.mp ho with rfl | ho
      · simp only [List.length_cons]
        omega
      · have := ih _ o ho
        simp only [accLen] at this
        simp only [List.length_cons]
        omega

/-- If the scan of `cs` emits nothing, every character lands on `pending`. -/
theorem scanFull_no_emit_pending (cs : List Char) : ∀ (st : ScanSt),
    (scanFull st cs).2 = [] →
    (scanFull st cs).1.pending = cs.reverse ++ st.pending := by
  induction cs with
  | nil => intro st _; simp [scanFull]
  | cons c cs ih =>
    intro st hemp
    rcases st with ⟨i, e, d, a, p⟩
    rcases scanStep_shape i e d a c with ⟨i', e', d', a', _, hstep⟩ |
      ⟨i', e', d', ob, _, hstep⟩
    · rw [scanFull_cons_none _ _ _ _ (hstep p)] at hemp ⊢
      rw [ih _ hemp]
      simp
    · rw [scanFull_cons_some _ _ _ _ _ (hstep p)] at hemp
      simp at hemp

theorem scanFull_single_none (st st1 : ScanSt) (c : Char) (h : scanStep st c = (st1, none)) :
    scanFull st [c] = (st1, []) := by
  rw [scanFull_cons_none _ _ _ _ h]; rfl

theorem scanFull_single_some (st st1 : ScanSt) (c : Char) (o : List Char)
    (h : scanStep st c = (st1, some o)) :
    scanFull st [c] = (st1, [o]) := by
  rw [scanFull_cons_some _ _ _ _ _ h]; rfl

theorem scanFull_seq (st st1 st2 : ScanSt) (xs ys : List Char) (os1 os2 : List (List Char))
    (h1 : scanFull st xs = (st1, os1)) (h2 : scanFull st1 ys = (st2, os2)) :
    scanFull st (xs ++ ys) = (st2, os1 ++ os2) := by
  simp [scanFull_append, h1, h2]

/-- Prepend a chunk of scanned characters (in reverse) to the tracked
candidate slice. -/
def revPush (a : Option (List Char)) (chunk : List Char) : Option (List Char) :=
  match a with
  | some l => some (chunk.reverse ++ l)
  | none => none

/-- Scanning escaped string-body text in string mode stays in string mode,
never emits, and pushes every character. -/
theorem scan_escStr (s : List Char) : ∀ (d : Nat) (a : Option (List Char)) (p : List Char),
    scanFull ⟨true, false, d, a, p⟩ (escStr s) =
      (⟨true, false, d, revPush a (escStr s), (escStr s).reverse ++ p⟩, []) := by
  induction s with
  | nil => intro d a p; cases a <;> simp [escStr, scanFull, revPush]
  | cons c cs ih =>
    intro d a p
    by_cases hc : c = '"' ∨ c = '\\'
    · have he : escStr (c :: cs) = '\\' :: c :: escStr cs := by
        simp [escStr, escChar, hc]
      have s1 : scanStep ⟨true, false, d, a, p⟩ '\\' =
          (⟨true, true, d, pushAcc a '\\', '\\' :: p⟩, none) := by
        simp [scanStep]
      have s2 : scanStep ⟨true, true, d, pushAcc a '\\', '\\' :: p⟩ c =
          (⟨true, false, d, pushAcc (pushAcc a '\\') c, c :: '\\' :: p⟩, none) := rfl
      rw [he, scanFull_cons_none _ _ _ _ s1, scanFull_cons_none _ _ _ _ s2, ih]
      cases a <;> simp [pushAcc, revPush, List.append_assoc]
    · push_neg at hc
      have he : escStr (c :: cs) = c :: escStr cs := by
        simp [escStr, escChar, hc.1, hc.2]
      have s1 : scanStep ⟨true, false, d, a, p⟩ c =
          (⟨true, false, d, pushAcc a c, c :: p⟩, none) := by
        simp [scanStep, hc.1, hc.2]
      rw [he, scanFull_cons_none _ _ _ _ s1, ih]
      cases a <;> simp [pushAcc, revPush, List.append_assoc]

/-- Scanning a serialized string literal from outside a string returns to
the same non-string state at the same depth, never emits, and pushes the
whole literal. -/
theorem scan_serStr (s : List Char) (d : Nat) (a : Option (List Char)) (p : List Char) :
    scanFull ⟨false, false, d, a, p⟩ (serStr s) =
      (⟨false, false, d, revPush a (serStr s), (serStr s).reverse ++ p⟩, []) := by
  have s1 : scanStep ⟨false, false, d, a, p⟩ '"' =
      (⟨true, false, d, pushAcc a '"', '"' :: p⟩, none) := by
    simp [scanStep]
  have h2 := scan_escStr s d (pushAcc a '"') ('"' :: p)
  have s3 : scanStep ⟨true, false, d, revPush (pushAcc a '"') (escStr s),
      (escStr s).reverse ++ '"' :: p⟩ '"' =
      (⟨false, false, d, pushAcc (revPush (pushAcc a '"') (escStr s)) '"',
        '"' :: ((escStr s).reverse ++ '"' :: p)⟩, none) := by
    simp [scanStep]
  have h3 := scanFull_seq _ _ _ (escStr s) ['"'] [] [] h2
    (scanFull_single_none _ _ _ s3)
  rw [show serStr s = '"' :: (escStr s ++ ['"']) from by simp [serStr],
    scanFull_cons_none _ _ _ _ s1, h3]
  cases a <;> simp [pushAcc, revPush, serStr, List.append_assoc]

/-- Scanning characters that are not quotes or braces, from outside a
string, only pushes them. -/
theorem scan_neutralList (cs : List Char) (h : ∀ c ∈ cs, c ≠ '"' ∧ c ≠ '{' ∧ c ≠ '}') :
    ∀ (d : Nat) (a : Option (List Char)) (p : List Char),
    scanFull ⟨false, false, d, a, p⟩ cs =
      (⟨false, false, d, revPush a cs, cs.reverse ++ p⟩, []) := by
  induction cs with
  | nil => intro d a p; cases a <;> simp [scanFull, revPush]
  | cons c cs ih =>
    intro d a p
    obtain ⟨h1, h2, h3⟩ := h c (List.mem_cons_self c cs)
    have s1 : scanStep ⟨false, false, d, a, p⟩ c =
        (⟨false, false, d, pushAcc a c, c :: p⟩, none) := by
      simp [scanStep, h1, h2, h3]
    rw [scanFull_cons_none _ _ _ _ s1, ih (fun x hx => h x (List.mem_cons_of_mem c hx))]
    cases a <;> simp [pushAcc, revPush, List.append_assoc]

/-- Scanning noise (no quote, no open brace — stray close braces allowed)
at depth zero with no start marker is inert: state unchanged, nothing
emitted, characters retained on `pending`. -/
theorem scan_noiseList (cs : List Char) (h : ∀ c ∈ cs, c ≠ '"' ∧ c ≠ '{') :
    ∀ (p : List Char),
    scanFull ⟨false, false, 0, none, p⟩ cs = (⟨false, false, 0, none, cs.reverse ++ p⟩, []) := by
  induction cs with
  | nil => intro p; simp [scanFull]
  | cons c cs ih =>
    intro p
    obtain ⟨h1, h2⟩ := h c (List.mem_cons_self c cs)
    have s1 : scanStep ⟨false, false, 0, none, p⟩ c = (⟨false, false, 0, none, c :: p⟩, none) := by
      by_cases h3 : c = '}'
      · subst h3; simp [scanStep]
      · simp [scanStep, h1, h2, h3, pushAcc]
    rw [scanFull_cons_none _ _ _ _ s1, ih (fun x hx => h x (List.mem_cons_of_mem c hx))]
    simp

theorem numChar_neutral (c : Char) (h : numChar c = true) :
    c ≠ '"' ∧ c ≠ '{' ∧ c ≠ '}' := by
  refine ⟨fun hc => ?_, fun hc => ?_, fun hc => ?_⟩ <;>
    (subst hc; exact absurd h (by decide))

theorem scanStep_neutralChar (d : Nat) (a : Option (List Char)) (p : List Char) (c : Char)
    (h1 : c ≠ '"') (h2 : c ≠ '{') (h3 : c ≠ '}') :
    scanStep ⟨false, false, d, a, p⟩ c = (⟨false, false, d, pushAcc a c, c :: p⟩, none) := by
  simp [scanStep, h1, h2, h3]

theorem scanStep_openBrace (d : Nat) (l p : List Char) :
    scanStep ⟨false, false, d, some l, p⟩ '{' =
      (⟨false, false, d + 1, some ('{' :: l), '{' :: p⟩, none) := by
  simp [scanStep]

theorem scanStep_closeDeep (d : Nat) (l p : List Char) (hd : 1 ≤ d) :
    scanStep ⟨false, false, d + 1, some l, p⟩ '}' =
      (⟨false, false, d, some ('}' :: l), '}' :: p⟩, none) := by
  have hne : ¬(d = 0) := by omega
  simp [scanStep, hne]

mutual

/-- Scanning a serialized well-formed value at depth at least one keeps
the scanner outside strings at the same depth, emits nothing, and extends
the tracked slice and `pending` by exactly the serialized text. -/
theorem scan_ser_deep (v : Json) (hwf : Json.wf v = true) (d : Nat) (l p : List Char)
    (hd : 1 ≤ d) :
    scanFull ⟨false, false, d, some l, p⟩ (ser v) =
      (⟨false, false, d, some ((ser v).reverse ++ l), (ser v).reverse ++ p⟩, []) := by
  cases v with
  | null =>
    have h := scan_neutralList (ser Json.null) (by decide) d (some l) p
    simpa [revPush] using h
  | bool b =>
    cases b with
    | true =>
      have h := scan_neutralList (ser (Json.bool true)) (by decide) d (some l) p
      simpa [revPush] using h
    | false =>
      have h := scan_neutralList (ser (Json.bool false)) (by decide) d (some l) p
      simpa [revPush] using h
  | num lex =>
    have hall : ∀ c ∈ lex, c ≠ '"' ∧ c ≠ '{' ∧ c ≠ '}' := by
      intro c hc
      have : numChar c = true := by
        simp [Json.wf, List.all_eq_true] at hwf
        exact hwf.2 c hc
      exact numChar_neutral c this
    have h := scan_neutralList lex hall d (some l) p
    simpa [ser, revPush] using h
  | str s =>
    have h := scan_serStr s d (some l) p
    simpa [ser, revPush] using h
  | arr items =>
    cases items with
    | nil =>
      have h := scan_neutralList (ser (Json.arr JsonItems.nil)) (by decide) d (some l) p
      simpa [revPush] using h
    | cons x tl =>
      have hwf2 : Json.wf x = true ∧ JsonItems.wf tl = true := by
        simpa [Json.wf, JsonItems.wf, Bool.and_eq_true] using hwf
      have s1 := scanStep_neutralChar d (some l) p '[' (by decide) (by decide) (by decide)
      have h1 := scan_ser_deep x hwf2.1 d ('[' :: l) ('[' :: p) hd
      have h2 := scan_serItemsRest_deep tl hwf2.2 d ((ser x).reverse ++ '[' :: l)
        ((ser x).reverse ++ '[' :: p) hd
      have s2 := scanStep_neutralChar d
        (some ((serItemsRest tl).reverse ++ ((ser x).reverse ++ '[' :: l)))
        ((serItemsRest tl).reverse ++ ((ser x).reverse ++ '[' :: p)) ']'
        (by decide) (by decide) (by decide)
      have inner := scanFull_seq _ _ _ (serItemsRest tl) [']'] [] [] h2
        (scanFull_single_none _ _ _ s2)
      have outer := scanFull_seq _ _ _ (ser x) (serItemsRest tl ++ [']']) [] [] h1 inner
      rw [show ser (Json.arr (JsonItems.cons x tl)) =
        '[' :: (ser x ++ (serItemsRest tl ++ [']'])) from by simp [ser],
        scanFull_cons_none _ _ _ _ (by simpa [pushAcc] using s1), outer]
      simp [pushAcc, List.append_assoc]
  | obj fields =>
    cases fields with
    | nil =>
      have s1 := scanStep_openBrace d l p
      have s2 := scanStep_closeDeep d ('{' :: l) ('{' :: p) hd
      rw [show ser (Json.obj JsonFields.nil) = '{' :: ['}'] from rfl,
        scanFull_cons_none _ _ _ _ s1, scanFull_cons_none _ _ _ _ s2]
      simp [scanFull]
    | cons k v tl =>
      have hwf2 : Json.wf v = true ∧ JsonFields.wf tl = true := by
        simpa [Json.wf, JsonFields.wf, Bool.and_eq_true] using hwf
      have s1 := scanStep_openBrace d l p
      have h1 := scan_serStr k (d + 1) (some ('{' :: l)) ('{' :: p)
      have s2 := scanStep_neutralChar (d + 1)
        (revPush (some ('{' :: l)) (serStr k)) ((serStr k).reverse ++ '{' :: p) ':'
        (by decide) (by decide) (by decide)
      have h2 := scan_ser_deep v hwf2.1 (d + 1)
        (':' :: ((serStr k).reverse ++ '{' :: l))
        (':' :: ((serStr k).reverse ++ '{' :: p)) (by omega)
      have h3 := scan_serFieldsRest_deep tl hwf2.2 (d + 1)
        ((ser v).reverse ++ (':' :: ((serStr k).reverse ++ '{' :: l)))
        ((ser v).reverse ++ (':' :: ((serStr k).reverse ++ '{' :: p))) (by omega)
      have s3 := scanStep_closeDeep d
        ((serFieldsRest tl).reverse ++ ((ser v).reverse ++
          (':' :: ((serStr k).reverse ++ '{' :: l))))
        ((serFieldsRest tl).reverse ++ ((ser v).reverse ++
          (':' :: ((serStr k).reverse ++ '{' :: p)))) hd
      have c4 := scanFull_seq _ _ _ (serFieldsRest tl) ['}'] [] [] h3
        (scanFull_single_none _ _ _ s3)
      have c3 := scanFull_seq _ _ _ (ser v) (serFieldsRest tl ++ ['}']) [] [] h2 c4
      have c2 := scanFull_seq _ _ _ [':'] (ser v ++ (serFieldsRest tl ++ ['}'])) [] []
        (scanFull_single_none _ _ _ (by simpa [revPush, pushAcc] using s2)) c3
      have c1 := scanFull_seq _ _ _ (serStr k)
        (':' :: (ser v ++ (serFieldsRest tl ++ ['}']))) [] []
        (by simpa [revPush] using h1) c2
      rw [show ser (Json.obj (JsonFields.cons k v tl)) =
        '{' :: (serStr k ++ (':' :: (ser v ++ (serFieldsRest tl ++ ['}'])))) from by
          simp [ser],
        scanFull_cons_none _ _ _ _ s1, c1]
      simp [List.append_assoc]

/-- Scanning the serialized tail of an array body at depth at least one
behaves like scanning neutral text plus the recursive elements. -/
theorem scan_serItemsRest_deep (xs : JsonItems) (hwf : JsonItems.wf xs = true) (d : Nat)
    (l p : List Char) (hd : 1 ≤ d) :
    scanFull ⟨false, false, d, some l, p⟩ (serItemsRest xs) =
      (⟨false, false, d, some ((serItemsRest xs).reverse ++ l),
        (serItemsRest xs).reverse ++ p⟩, []) := by
  cases xs with
  | nil => simp [serItemsRest, scanFull]
  | cons x tl =>
    have hwf2 : Json.wf x = true ∧ JsonItems.wf tl = true := by
      simpa [JsonItems.wf, Bool.and_eq_true] using hwf
    have s1 := scanStep_neutralChar d (some l) p ',' (by decide) (by decide) (by decide)
    have h1 := scan_ser_deep x hwf2.1 d (',' :: l) (',' :: p) hd
    have h2 := scan_serItemsRest_deep tl hwf2.2 d ((ser x).reverse ++ ',' :: l)
      ((ser x).reverse ++ ',' :: p) hd
    have c1 := scanFull_seq _ _ _ (ser x) (serItemsRest tl) [] [] h1 h2
    rw [show serItemsRest (JsonItems.cons x tl) = ',' :: (ser x ++ serItemsRest tl) from by
        simp [serItemsRest],
      scanFull_cons_none _ _ _ _ (by simpa [pushAcc] using s1), c1]
    simp [List.append_assoc]

/-- Scanning the serialized tail of an object body at depth at least one
behaves likewise. -/
theorem scan_serFieldsRest_deep (fs : JsonFields) (hwf : JsonFields.wf fs = true) (d : Nat)
    (l p : List Char) (hd : 1 ≤ d) :
    scanFull ⟨false, false, d, some l, p⟩ (serFieldsRest fs) =
      (⟨false, false, d, some ((serFieldsRest fs).reverse ++ l),
        (serFieldsRest fs).reverse ++ p⟩, []) := by
  cases fs with
  | nil => simp [serFieldsRest, scanFull]
  | cons k v tl =>
    have hwf2 : Json.wf v = true ∧ JsonFields.wf tl = true := by
      simpa [JsonFields.wf, Bool.and_eq_true] using hwf
    have s1 := scanStep_neutralChar d (some l) p ',' (by decide) (by decide) (by decide)
    have h1 := scan_serStr k d (some (',' :: l)) (',' :: p)
    have s2 := scanStep_neutralChar d (revPush (some (',' :: l)) (serStr k))
      ((serStr k).reverse ++ ',' :: p) ':' (by decide) (by decide) (by decide)
    have h2 := scan_ser_deep v hwf2.1 d (':' :: ((serStr k).reverse ++ ',' :: l))
      (':' :: ((serStr k).reverse ++ ',' :: p)) hd
    have h3 := scan_serFieldsRest_deep tl hwf2.2 d
      ((ser v).reverse ++ (':' :: ((serStr k).reverse ++ ',' :: l)))
      ((ser v).reverse ++ (':' :: ((serStr k).reverse ++ ',' :: p))) hd
    have c3 := scanFull_seq _ _ _ (ser v) (serFieldsRest tl) [] [] h2 h3
    have c2 := scanFull_seq _ _ _ [':'] (ser v ++ serFieldsRest tl) [] []
      (scanFull_single_none _ _ _ (by simpa [revPush, pushAcc] using s2)) c3
    have c1 := scanFull_seq _ _ _ (serStr k) (':' :: (ser v ++ serFieldsRest tl)) [] []
      (by simpa [revPush] using h1) c2
    rw [show serFieldsRest (JsonFields.cons k v tl) =
      ',' :: (serStr k ++ (':' :: (ser v ++ serFieldsRest tl))) from by simp [serFieldsRest],
      scanFull_cons_none _ _ _ _ (by simpa [pushAcc] using s1), c1]
    simp [List.append_assoc]

end

theorem scanStep_openNoneZero (p : List Char) :
    scanStep ⟨false, false, 0, none, p⟩ '{' =
      (⟨false, false, 1, some ['{'], '{' :: p⟩, none) := by
  simp [scanStep]

theorem scanStep_closeEmit (l p : List Char) :
    scanStep ⟨false, false, 1, some l, p⟩ '}' =
      (⟨false, false, 0, none, []⟩, some ('}' :: l).reverse) := by
  simp [scanStep]

/-- Scanning one serialized well-formed top-level object from a fresh
depth-zero state emits exactly its text once and resets the scanner to the
initial state with empty `pending`, whatever was pending before. -/
theorem scan_obj_top (fs : JsonFields) (hwf : Json.wf (Json.obj fs) = true) (p : List Char) :
    scanFull ⟨false, false, 0, none, p⟩ (ser (Json.obj fs)) =
      (⟨false, false, 0, none, []⟩, [ser (Json.obj fs)]) := by
  cases fs with
  | nil =>
    rw [show ser (Json.obj JsonFields.nil) = '{' :: ['}'] from rfl,
      scanFull_cons_none _ _ _ _ (scanStep_openNoneZero p),
      scanFull_cons_some _ _ _ _ _ (scanStep_closeEmit ['{'] ('{' :: p))]
    simp [scanFull]
  | cons k v tl =>
    have hwf2 : Json.wf v = true ∧ JsonFields.wf tl = true := by
      simpa [Json.wf, JsonFields.wf, Bool.and_eq_true] using hwf
    have s1 := scanStep_openNoneZero p
    have h1 := scan_serStr k 1 (some ['{']) ('{' :: p)
    have s2 := scanStep_neutralChar 1 (revPush (some ['{']) (serStr k))
      ((serStr k).reverse ++ '{' :: p) ':' (by decide) (by decide) (by decide)
    have h2 := scan_ser_deep v hwf2.1 1 (':' :: ((serStr k).reverse ++ ['{']))
      (':' :: ((serStr k).reverse ++ '{' :: p)) (by omega)
    have h3 := scan_serFieldsRest_deep tl hwf2.2 1
      ((ser v).reverse ++ (':' :: ((serStr k).reverse ++ ['{'])))
      ((ser v).reverse ++ (':' :: ((serStr k).reverse ++ '{' :: p))) (by omega)
    have s3 := scanStep_closeEmit
      ((serFieldsRest tl).reverse ++ ((ser v).reverse ++
        (':' :: ((serStr k).reverse ++ ['{']))))
      ((serFieldsRest tl).reverse ++ ((ser v).reverse ++
        (':' :: ((serStr k).reverse ++ '{' :: p))))
    have c4 := scanFull_seq _ _ _ (serFieldsRest tl) ['}'] []
      [('}' :: ((serFieldsRest tl).reverse ++ ((ser v).reverse ++
        (':' :: ((serStr k).reverse ++ ['{']))))).reverse] h3
      (scanFull_single_some _ _ _ _ s3)
    have c3 := scanFull_seq _ _ _ (ser v) (serFieldsRest tl ++ ['}']) [] _ h2 c4
    have c2 := scanFull_seq _ _ _ [':'] (ser v ++ (serFieldsRest tl ++ ['}'])) [] _
      (scanFull_single_none _ _ _ (by simpa [revPush, pushAcc] using s2)) c3
    have c1 := scanFull_seq _ _ _ (serStr k)
      (':' :: (ser v ++ (serFieldsRest tl ++ ['}']))) [] _
      (by simpa [revPush] using h1) c2
    rw [show ser (Json.obj (JsonFields.cons k v tl)) =
      '{' :: (serStr k ++ (':' :: (ser v ++ (serFieldsRest tl ++ ['}'])))) from by
        simp [ser],
      scanFull_cons_none _ _ _ _ s1, c1]
    simp [List.append_assoc]

/-- Extraction of a buffer consisting of inert noise followed by one
serialized well-formed object yields exactly that object and an empty
remainder. -/
theorem extract_noise_obj (noise : List Char) (hn : ∀ c ∈ noise, c ≠ '"' ∧ c ≠ '{')
    (fs : JsonFields) (hwf : Json.wf (Json.obj fs) = true) :
    extractJsonObjects (noise ++ ser (Json.obj fs)) = ([ser (Json.obj fs)], []) := by
  have h1 := scan_noiseList noise hn []
  have h2 := scan_obj_top fs hwf (noise.reverse ++ [])
  have h3 := scanFull_seq _ _ _ noise (ser (Json.obj fs)) [] [ser (Json.obj fs)] h1 h2
  simp only [extractJsonObjects, initSt, h3]
  simp [capBuf, MAX_BUF]

/-- Shape test used to state theorems about top-level objects. -/
def Json.isObj : Json → Bool
  | .obj _ => true
  | _ => false

/-- A buffer holding noise/object pairs followed by trailing noise. -/
def weave : List (List Char × Json) → List Char → List Char
  | [], tail => tail
  | (n, v) :: ps, tail => n ++ (ser v ++ weave ps tail)

/-- Scanning a weave of inert noise and serialized well-formed objects
emits exactly the object texts in order and leaves the trailing noise
pending. -/
theorem scan_weave (pairs : List (List Char × Json)) (tail : List Char)
    (hn : ∀ pr ∈ pairs, ∀ c ∈ pr.1, c ≠ '"' ∧ c ≠ '{')
    (hobj : ∀ pr ∈ pairs, Json.isObj pr.2 = true ∧ Json.wf pr.2 = true)
    (htail : ∀ c ∈ tail, c ≠ '"' ∧ c ≠ '{') :
    scanFull initSt (weave pairs tail) =
      (⟨false, false, 0, none, tail.reverse⟩, pairs.map (fun pr => ser pr.2)) := by
  induction pairs with
  | nil =>
    have h := scan_noiseList tail htail []
    simpa [weave, initSt] using h
  | cons pr ps ih =>
    obtain ⟨n, v⟩ := pr
    obtain ⟨hov, hwv⟩ := hobj (n, v) (List.mem_cons_self _ _)
    cases v with
    | obj fs =>
      have h1 := scan_noiseList n (hn (n, Json.obj fs) (List.mem_cons_self _ _)) []
      have h2 := scan_obj_top fs hwv (n.reverse ++ [])
      have h3 := ih (fun q hq => hn q (List.mem_cons_of_mem _ hq))
        (fun q hq => hobj q (List.mem_cons_of_mem _ hq))
      have c2 := scanFull_seq _ _ _ (ser (Json.obj fs)) (weave ps tail) [ser (Json.obj fs)]
        (ps.map (fun q => ser q.2)) h2 (by simpa [initSt] using h3)
      have c1 := scanFull_seq _ _ _ n (ser (Json.obj fs) ++ weave ps tail) []
        (ser (Json.obj fs) :: ps.map (fun q => ser q.2)) (by simpa [initSt] using h1) c2
      simpa [weave, initSt] using c1
    | null => simp [Json.isObj] at hov
    | bool b => simp [Json.isObj] at hov
    | num lex => simp [Json.isObj] at hov
    | str s => simp [Json.isObj] at hov
    | arr items => simp [Json.isObj] at hov

/-- Extraction over a weave yields exactly the object texts and the capped
trailing noise. -/
theorem extract_weave (pairs : List (List Char × Json)) (tail : List Char)
    (hn : ∀ pr ∈ pairs, ∀ c ∈ pr.1, c ≠ '"' ∧ c ≠ '{')
    (hobj : ∀ pr ∈ pairs, Json.isObj pr.2 = true ∧ Json.wf pr.2 = true)
    (htail : ∀ c ∈ tail, c ≠ '"' ∧ c ≠ '{') :
    extractJsonObjects (weave pairs tail) =
      (pairs.map (fun pr => ser pr.2), capBuf tail) := by
  have h := scan_weave pairs tail hn hobj htail
  simp [extractJsonObjects, h]

/-- Scanning any proper prefix of one serialized well-formed top-level
object emits nothing. -/
theorem scan_obj_proper_pre (fs : JsonFields) (hwf : Json.wf (Json.obj fs) = true)
    (pre suf : List Char) (hsplit : pre ++ suf = ser (Json.obj fs)) (hsuf : suf ≠ []) :
    (scanFull initSt pre).2 = [] := by
  have hfull := scan_obj_top fs hwf []
  have happ := scanFull_append pre initSt suf
  rw [hsplit] at happ
  have hcat : (scanFull initSt pre).2 ++ (scanFull (scanFull initSt pre).1 suf).2 =
      [ser (Json.obj fs)] := by
    have := congrArg Prod.snd happ
    simp only [show (⟨false, false, 0, none, []⟩ : ScanSt) = initSt from rfl] at hfull
    rw [hfull] at this
    exact this.symm
  cases hos : (scanFull initSt pre).2 with
  | nil => rfl
  | cons o t =>
    rw [hos] at hcat
    have ho : o = ser (Json.obj fs) ∧ t = [] ∧
        (scanFull (scanFull initSt pre).1 suf).2 = [] := by
      rcases List.cons_eq_cons.mp hcat with ⟨h1, h2⟩
      have := List.append_eq_nil.mp h2
      exact ⟨h1, this.1, this.2⟩
    have hmem : o ∈ (scanFull initSt pre).2 := by rw [hos]; exact List.mem_cons_self _ _
    have hlen := scanFull_emit_length pre initSt o hmem
    have hplen : pre.length < (ser (Json.obj fs)).length := by
      have : pre.length + suf.length = (ser (Json.obj fs)).length := by
        rw [← hsplit, List.length_append]
      have : 0 < suf.length := List.length_pos.mpr hsuf
      omega
    rw [ho.1] at hlen
    simp [initSt, accLen] at hlen
    omega

/-- Extraction of a proper prefix of one serialized object (within the
size cap) emits nothing and keeps the prefix intact. -/
theorem extract_obj_proper_pre (fs : JsonFields) (hwf : Json.wf (Json.obj fs) = true)
    (pre suf : List Char) (hsplit : pre ++ suf = ser (Json.obj fs)) (hsuf : suf ≠ [])
    (hcap : pre.length ≤ MAX_BUF) :
    extractJsonObjects pre = ([], pre) := by
  have hemp := scan_obj_proper_pre fs hwf pre suf hsplit hsuf
  have hpend := scanFull_no_emit_pending pre initSt hemp
  have hrev : (scanFull initSt pre).1.pending.reverse = pre := by
    rw [hpend]; simp [initSt]
  have hno : ¬(MAX_BUF < pre.length) := by omega
  simp only [extractJsonObjects, hemp, hrev]
  simp [capBuf, hno]

theorem feedAll_cons (c : List Char) (cs : List (List Char)) (buf : List Char) :
    feedAll (c :: cs) buf =
      ((feedChunk buf c).1 ++ (feedAll cs (feedChunk buf c).2).1,
       (feedAll cs (feedChunk buf c).2).2) := rfl

theorem feedChunk_ne (buf c : List Char) (h : c ≠ []) :
    feedChunk buf c = extractJsonObjects (buf ++ c) := by
  simp only [feedChunk, if_neg h]

theorem join_ne_nil (cs : List (List Char)) (h0 : cs ≠ []) (h1 : ∀ c ∈ cs, c ≠ []) :
    cs.flatten ≠ [] := by
  cases cs with
  | nil => exact absurd rfl h0
  | cons c t =>
    intro hj
    rw [List.flatten_cons] at hj
    rcases List.append_eq_nil.mp hj with ⟨hc, _⟩
    exact h1 c (List.mem_cons_self _ _) hc

/-- Feeding chunks that together still form a proper prefix of one
serialized object (within the cap) emits nothing and accumulates the
prefix in the buffer. -/
theorem feedAll_obj_pre (fs : JsonFields) (hwf : Json.wf (Json.obj fs) = true)
    (hcap : (ser (Json.obj fs)).length ≤ MAX_BUF) :
    ∀ (chunks : List (List Char)) (done suf : List Char),
    (done ++ chunks.flatten) ++ suf = ser (Json.obj fs) → suf ≠ [] →
    feedAll chunks done = ([], done ++ chunks.flatten) := by
  intro chunks
  induction chunks with
  | nil => intro done suf _ _; simp [feedAll]
  | cons c cs ih =>
    intro done suf h hs
    have hsplit : ((done ++ c) ++ cs.flatten) ++ suf = ser (Json.obj fs) := by
      rw [← h, List.flatten_cons]
      simp [List.append_assoc]
    by_cases hc : c = []
    · subst hc
      have h2 := ih done suf (by simpa using hsplit) hs
      simp [feedAll, feedChunk, h2, List.flatten_cons]
    · have hsuf2 : cs.flatten ++ suf ≠ [] := by
        intro hx
        exact hs (List.append_eq_nil.mp hx).2
      have hlen : (done ++ c).length ≤ MAX_BUF := by
        have hl := congrArg List.length hsplit
        simp only [List.length_append] at hl
        simp only [List.length_append]
        omega
      have hx := extract_obj_proper_pre fs hwf (done ++ c) (cs.flatten ++ suf)
        (by rw [← List.append_assoc]; exact hsplit) hsuf2 hlen
      have h2 := ih (done ++ c) suf hsplit hs
      rw [feedAll_cons, feedChunk_ne done c hc, hx]
      simp [h2, List.flatten_cons, List.append_assoc]

/-- Feeding chunks that complete one serialized object emits exactly that
object once and empties the buffer. -/
theorem feedAll_obj_complete (fs : JsonFields) (hwf : Json.wf (Json.obj fs) = true)
    (hcap : (ser (Json.obj fs)).length ≤ MAX_BUF) :
    ∀ (chunks : List (List Char)) (done : List Char),
    chunks ≠ [] → (∀ c ∈ chunks, c ≠ []) →
    done ++ chunks.flatten = ser (Json.obj fs) →
    feedAll chunks done = ([ser (Json.obj fs)], []) := by
  intro chunks
  induction chunks with
  | nil => intro done h0 _ _; exact absurd rfl h0
  | cons c cs ih =>
    intro done _ hne h
    have hcne : c ≠ [] := hne c (List.mem_cons_self _ _)
    cases cs with
    | nil =>
      have hdc : done ++ c = ser (Json.obj fs) := by
        rw [← h, List.flatten_cons]
        simp
      have hx : extractJsonObjects (done ++ c) = ([ser (Json.obj fs)], []) := by
        rw [hdc]
        have h9 := extract_noise_obj [] (fun x hx => absurd hx (List.not_mem_nil x)) fs hwf
        simpa using h9
      rw [feedAll_cons, feedChunk_ne done c hcne, hx]
      simp [feedAll]
    | cons c2 cs2 =>
      have hjtail : (c2 :: cs2).flatten ≠ [] :=
        join_ne_nil _ (by simp) (fun q hq => hne q (List.mem_cons_of_mem _ hq))
      have hsplit : ((done ++ c) ++ (c2 :: cs2).flatten) = ser (Json.obj fs) := by
        rw [← h, List.flatten_cons]
        simp [List.append_assoc]
      have hlen : (done ++ c).length ≤ MAX_BUF := by
        have hl := congrArg List.length hsplit
        simp only [List.length_append] at hl
        simp only [List.length_append]
        omega
      have hx := extract_obj_proper_pre fs hwf (done ++ c) ((c2 :: cs2).flatten)
        hsplit hjtail hlen
      have h2 := ih (done ++ c) (by simp) (fun q hq => hne q (List.mem_cons_of_mem _ hq))
        hsplit
      rw [feedAll_cons, feedChunk_ne done c hcne, hx]
      simp [h2]

theorem capBuf_length_le (r : List Char) : (capBuf r).length ≤ MAX_BUF := by
  by_cases h : MAX_BUF < r.length
  · simp [capBuf, h]
    omega
  · simp [capBuf, h]
    omega

theorem capBuf_drop_oldest (r : List Char) (h : MAX_BUF < r.length) :
    capBuf r = r.drop (r.length - MAX_BUF) := by
  simp [capBuf, h]

theorem runExtract_textBuf (s : Session) :
    (runExtract s).textBuf = (extractJsonObjects s.textBuf).2 := rfl

theorem handleTextChunk_textBuf_le (s : Session) (c : List Char)
    (h : s.textBuf.length ≤ MAX_BUF) :
    (handleTextChunk s c).textBuf.length ≤ MAX_BUF := by
  by_cases hc : c = []
  · simpa [handleTextChunk, hc] using h
  · have : (handleTextChunk s c).textBuf =
        (extractJsonObjects (s.textBuf ++ c)).2 := by
      simp [handleTextChunk, hc, runExtract_textBuf]
    rw [this]
    exact capBuf_length_le _

theorem feedChunks_textBuf_le (chunks : List (List Char)) : ∀ (s : Session),
    s.textBuf.length ≤ MAX_BUF → (feedChunks s chunks).textBuf.length ≤ MAX_BUF := by
  induction chunks with
  | nil => intro s h; simpa [feedChunks] using h
  | cons c cs ih =>
    intro s h
    have h1 := handleTextChunk_textBuf_le s c h
    have h2 := ih (handleTextChunk s c) h1
    simpa [feedChunks] using h2

theorem emitObject_error (s : Session) (j : Json) : (emitObject s j).error = s.error := by
  unfold emitObject
  cases h : jsGet j ("type".data) with
  | none => rfl
  | some jv =>
    cases jv <;> simp <;> split_ifs <;> rfl

theorem emitFold_error (cands : List (List Char)) : ∀ (s : Session),
    (cands.foldl
      (fun st c =>
        match parseJson c with
        | some j => emitObject st j
        | none => st) s).error = s.error := by
  induction cands with
  | nil => intro s; rfl
  | cons c cs ih =>
    intro s
    cases h : parseJson c with
    | none => simp [List.foldl_cons, h, ih]
    | some j => simp [List.foldl_cons, h, ih, emitObject_error]

theorem runExtract_error (s : Session) : (runExtract s).error = s.error := by
  unfold runExtract
  simp [emitFold_error]

theorem escStr_plain (s : List Char) (h : ∀ c ∈ s, ¬(c = '"' ∨ c = '\\')) :
    escStr s = s := by
  induction s with
  | nil => rfl
  | cons c cs ih =>
    rw [show escStr (c :: cs) = escChar c ++ escStr cs from rfl,
      show escChar c = [c] from by simp [escChar, h c (List.mem_cons_self c cs)],
      ih (fun x hx => h x (List.mem_cons_of_mem c hx))]
    rfl

mutual

/-- Whether some string literal of the value (a key or a string value)
contains a literal brace or a quote (the latter is escaped in the
serialized text). -/
def Json.hasBraceQuoteStr : Json → Bool
  | .null => false
  | .bool _ => false
  | .num _ => false
  | .str s => s.any (fun c => c = '{' || c = '}' || c = '"')
  | .arr items => JsonItems.hasBraceQuoteStr items
  | .obj fields => JsonFields.hasBraceQuoteStr fields

/-- Array-element version of `Json.hasBraceQuoteStr`. -/
def JsonItems.hasBraceQuoteStr : JsonItems → Bool
  | .nil => false
  | .cons x tl => Json.hasBraceQuoteStr x || JsonItems.hasBraceQuoteStr tl

/-- Field-list version of `Json.hasBraceQuoteStr`. -/
def JsonFields.hasBraceQuoteStr : JsonFields → Bool
  | .nil => false
  | .cons k v tl =>
    k.any (fun c => c = '{' || c = '}' || c = '"') || Json.hasBraceQuoteStr v ||
      JsonFields.hasBraceQuoteStr tl

end

/-- The emitted candidate list does not depend on the `pending` component
of the starting state. -/
theorem scanFull_snd_pending (cs : List Char) : ∀ (i e : Bool) (d : Nat)
    (a : Option (List Char)) (p q : List Char),
    (scanFull ⟨i, e, d, a, p⟩ cs).2 = (scanFull ⟨i, e, d, a, q⟩ cs).2 := by
  induction cs with
  | nil => intro i e d a p q; rfl
  | cons c cs ih =>
    intro i e d a p q
    rcases scanStep_shape i e d a c with ⟨i', e', d', a', _, hstep⟩ |
      ⟨i', e', d', ob, _, hstep⟩
    · rw [scanFull_cons_none _ _ _ _ (hstep p), scanFull_cons_none _ _ _ _ (hstep q)]
      exact ih i' e' d' a' (c :: p) (c :: q)
    · rw [scanFull_cons_some _ _ _ _ _ (hstep p), scanFull_cons_some _ _ _ _ _ (hstep q)]

theorem dispatchData_done_sentinel (s : Session) (et : Option (List Char)) :
    dispatchData s et ("[DONE]".data) = { s with loading := false } := by
  unfold dispatchData
  rw [if_neg (by decide), if_pos rfl]

theorem dispatchData_completed (s : Session) (ds : List Char) (evt : Json)
    (hne : ds ≠ []) (hnd : ds ≠ "[DONE]".data) (hp : parseJson ds = some evt) :
    dispatchData s (some ("response.completed".data)) ds =
      { runExtract s with loading := false } := by
  unfold dispatchData
  rw [if_neg hne, if_neg hnd, hp]
  simp

theorem dispatchData_outdone (s : Session) (ds : List Char) (evt : Json)
    (hne : ds ≠ []) (hnd : ds ≠ "[DONE]".data) (hp : parseJson ds = some evt) :
    dispatchData s (some ("response.output_text.done".data)) ds = runExtract s := by
  unfold dispatchData
  rw [if_neg hne, if_neg hnd, hp]
  simp

/-! Claim theorems. -/

/-- C1: a logical text buffer whose next complete top-level JSON object
contains string literals holding literal braces or escaped quotes is
extracted as exactly one candidate object — the full serialized text,
neither split nor truncated — with any preceding inert noise consumed and
nothing left in the buffer. -/
theorem claim1_string_aware_extraction (noise : List Char)
    (hn : ∀ c ∈ noise, c ≠ '"' ∧ c ≠ '{')
    (fs : JsonFields) (hwf : Json.wf (Json.obj fs) = true)
    (hspecial : Json.hasBraceQuoteStr (Json.obj fs) = true) :
    extractJsonObjects (noise ++ ser (Json.obj fs)) = ([ser (Json.obj fs)], []) :=
  extract_noise_obj noise hn fs hwf

theorem claim1_string_aware_extraction_witness :
    extractJsonObjects ("nz".data ++ ser (Json.obj (JsonFields.cons ("a".data)
        (Json.str ['x', '}', '"', '{']) JsonFields.nil))) =
      ([ser (Json.obj (JsonFields.cons ("a".data) (Json.str ['x', '}', '"', '{'])
        JsonFields.nil))], []) :=
  claim1_string_aware_extraction ("nz".data) (by decide)
    (JsonFields.cons ("a".data) (Json.str ['x', '}', '"', '{']) JsonFields.nil)
    (by decide) (by decide)

/-- C2 (counterexample to the claim as stated): with K = 1 well-formed
top-level object `{}` and the single-character non-JSON noise `"` before
it, one extraction pass emits zero objects, not one: the stray quote puts
the scanner into string mode and the object's braces are ignored. -/
theorem claim2_extraction_completeness_cex :
    Json.wf (Json.obj JsonFields.nil) = true ∧
    (extractJsonObjects ('"' :: ser (Json.obj JsonFields.nil))).1 = [] ∧
    (extractJsonObjects ('"' :: ser (Json.obj JsonFields.nil))).1 ≠
      [ser (Json.obj JsonFields.nil)] := by
  refine ⟨rfl, by decide, by decide⟩

/-- C2 (amended): for noise free of quotes and open braces (stray close
braces allowed), a buffer of K well-formed top-level JSON objects
interleaved with such noise yields in one extraction pass exactly the K
object texts, in left-to-right order; every emitted candidate parses
successfully; the noise is never emitted — it is either consumed together
with an object or retained (capped) as the remainder. -/
theorem claim2_extraction_completeness (pairs : List (List Char × Json)) (tail : List Char)
    (hn : ∀ pr ∈ pairs, ∀ c ∈ pr.1, c ≠ '"' ∧ c ≠ '{')
    (hobj : ∀ pr ∈ pairs, Json.isObj pr.2 = true ∧ Json.wf pr.2 = true)
    (hps : ∀ pr ∈ pairs, (parseJson (ser pr.2)).isSome = true)
    (htail : ∀ c ∈ tail, c ≠ '"' ∧ c ≠ '{') :
    (extractJsonObjects (weave pairs tail)).1 = pairs.map (fun pr => ser pr.2) ∧
    (∀ o ∈ (extractJsonObjects (weave pairs tail)).1, (parseJson o).isSome = true) ∧
    (extractJsonObjects (weave pairs tail)).2 = capBuf tail := by
  have h := extract_weave pairs tail hn hobj htail
  refine ⟨by rw [h], ?_, by rw [h]⟩
  intro o ho
  rw [h] at ho
  obtain ⟨pr, hpr, rfl⟩ := List.mem_map.mp ho
  exact hps pr hpr

theorem claim2_extraction_completeness_witness :
    (extractJsonObjects (weave [(['x'], Json.obj JsonFields.nil),
        (['}'], Json.obj (JsonFields.cons ("a".data) (Json.num ['1']) JsonFields.nil))]
        ("tl".data))).1 =
      [ser (Json.obj JsonFields.nil),
       ser (Json.obj (JsonFields.cons ("a".data) (Json.num ['1']) JsonFields.nil))] ∧
    (∀ o ∈ (extractJsonObjects (weave [(['x'], Json.obj JsonFields.nil),
        (['}'], Json.obj (JsonFields.cons ("a".data) (Json.num ['1']) JsonFields.nil))]
        ("tl".data))).1, (parseJson o).isSome = true) ∧
    (extractJsonObjects (weave [(['x'], Json.obj JsonFields.nil),
        (['}'], Json.obj (JsonFields.cons ("a".data) (Json.num ['1']) JsonFields.nil))]
        ("tl".data))).2 = capBuf ("tl".data) := by
  have h := claim2_extraction_completeness
    [(['x'], Json.obj JsonFields.nil),
     (['}'], Json.obj (JsonFields.cons ("a".data) (Json.num ['1']) JsonFields.nil))]
    ("tl".data) (by decide) (by decide) (by decide) (by decide)
  simpa using h

/-- C3 (amended): for a well-formed top-level JSON object whose serialized
text fits the 512 KiB buffer cap, delivering the text split into two or
more nonempty consecutive chunks emits exactly that one object once the
final chunk arrives, with an empty buffer afterwards, and emits nothing
after any proper prefix of the chunk sequence. -/
theorem claim3_split_resilience (fs : JsonFields) (hwf : Json.wf (Json.obj fs) = true)
    (hcap : (ser (Json.obj fs)).length ≤ MAX_BUF)
    (chunks : List (List Char)) (hne : ∀ c ∈ chunks, c ≠ [])
    (hlen2 : 2 ≤ chunks.length) (hjoin : chunks.flatten = ser (Json.obj fs)) :
    feedAll chunks [] = ([ser (Json.obj fs)], []) ∧
    ∀ j < chunks.length, (feedAll (chunks.take j) []).1 = [] := by
  constructor
  · refine feedAll_obj_complete fs hwf hcap chunks [] ?_ hne (by simpa using hjoin)
    rintro rfl
    simp at hlen2
  · intro j hj
    have hdropne : (chunks.drop j).flatten ≠ [] := by
      apply join_ne_nil
      · intro h
        rw [List.drop_eq_nil_iff] at h
        omega
      · intro c hc
        exact hne c (List.mem_of_mem_drop hc)
    have hsplit : (([] ++ (chunks.take j).flatten)) ++ (chunks.drop j).flatten =
        ser (Json.obj fs) := by
      simp only [List.nil_append]
      rw [← List.flatten_append, List.take_append_drop]
      exact hjoin
    have h := feedAll_obj_pre fs hwf hcap (chunks.take j) [] ((chunks.drop j).flatten)
      hsplit hdropne
    rw [h]

theorem claim3_split_resilience_witness :
    feedAll [('{' :: '"' :: 'a' :: '"' :: ':' :: '"' :: ['}']), ['"', '}']] [] =
      ([ser (Json.obj (JsonFields.cons ['a'] (Json.str ['}']) JsonFields.nil))], []) ∧
    (feedAll (List.take 1
      [('{' :: '"' :: 'a' :: '"' :: ':' :: '"' :: ['}']), ['"', '}']]) []).1 = [] := by
  have h := claim3_split_resilience
    (JsonFields.cons ['a'] (Json.str ['}']) JsonFields.nil) (by decide) (by decide)
    [('{' :: '"' :: 'a' :: '"' :: ':' :: '"' :: ['}']), ['"', '}']]
    (by decide) (by decide) (by decide)
  exact ⟨h.1, h.2 1 (by norm_num)⟩

/-- String content of the oversized counterexample object: 512 Ki `x`
characters, so that the object's text exceeds the buffer cap while still
incomplete. -/
def cex3Str : List Char := List.replicate 524288 'x'

/-- The oversized counterexample object `{"a":"xxx…x"}`. -/
def cex3Obj : Json := Json.obj (JsonFields.cons ['a'] (Json.str cex3Str) JsonFields.nil)

/-- First delivery chunk: everything except the closing `"}`. -/
def cex3Chunk1 : List Char := '{' :: '"' :: 'a' :: '"' :: ':' :: '"' :: cex3Str

/-- Second delivery chunk: the closing `"}`. -/
def cex3Chunk2 : List Char := ['"', '}']

/-- C3 (counterexample to the claim as stated): a well-formed top-level
object whose text exceeds the 512 KiB cap, split into two nonempty chunks,
is never emitted: after the first chunk the cap drops the oldest
characters (including the opening brace), so the final chunk completes
nothing.  The claim as stated — exactly one emission for every split of
every well-formed object — therefore fails on this input. -/
theorem claim3_split_resilience_cex :
    (cex3Chunk1 ≠ [] ∧ cex3Chunk2 ≠ []) ∧
    [cex3Chunk1, cex3Chunk2].flatten = ser cex3Obj ∧
    Json.wf cex3Obj = true ∧
    (feedAll [cex3Chunk1, cex3Chunk2] []).1 = [] ∧
    (feedAll [cex3Chunk1, cex3Chunk2] []).1 ≠ [ser cex3Obj] := by
  have hplain : ∀ c ∈ cex3Str, ¬(c = '"' ∨ c = '\\') := by
    intro c hc
    simp only [cex3Str] at hc
    have hx := List.eq_of_mem_replicate hc
    subst hx
    decide
  have hesc : escStr cex3Str = cex3Str := escStr_plain cex3Str hplain
  have hc1ne : cex3Chunk1 ≠ [] := by simp [cex3Chunk1]
  have hc2ne : cex3Chunk2 ≠ [] := by simp [cex3Chunk2]
  -- the serialized object text is chunk1 ++ chunk2
  have hss : ser (Json.str cex3Str) = '"' :: cex3Str ++ ['"'] := by
    show '"' :: escStr cex3Str ++ ['"'] = '"' :: cex3Str ++ ['"']
    rw [hesc]
  have hser : ser cex3Obj = cex3Chunk1 ++ cex3Chunk2 := by
    rw [show ser cex3Obj = '{' :: serStr ['a'] ++ ':' :: ser (Json.str cex3Str) ++
        serFieldsRest JsonFields.nil ++ ['}'] from rfl,
      show serStr ['a'] = ['"', 'a', '"'] from rfl, hss]
    simp [cex3Chunk1, cex3Chunk2, serFieldsRest]
  -- scanning chunk1 ends inside the string, emitting nothing
  have t1 : scanStep initSt '{' = (⟨false, false, 1, some ['{'], ['{']⟩, none) := by
    simp [scanStep, initSt]
  have t2 : scanStep ⟨false, false, 1, some ['{'], ['{']⟩ '"' =
      (⟨true, false, 1, some ['"', '{'], ['"', '{']⟩, none) := by
    simp [scanStep, pushAcc]
  have t3 : scanStep ⟨true, false, 1, some ['"', '{'], ['"', '{']⟩ 'a' =
      (⟨true, false, 1, some ['a', '"', '{'], ['a', '"', '{']⟩, none) := by
    simp [scanStep, pushAcc]
  have t4 : scanStep ⟨true, false, 1, some ['a', '"', '{'], ['a', '"', '{']⟩ '"' =
      (⟨false, false, 1, some ['"', 'a', '"', '{'], ['"', 'a', '"', '{']⟩, none) := by
    simp [scanStep, pushAcc]
  have t5 : scanStep ⟨false, false, 1, some ['"', 'a', '"', '{'], ['"', 'a', '"', '{']⟩ ':' =
      (⟨false, false, 1, some [':', '"', 'a', '"', '{'], [':', '"', 'a', '"', '{']⟩,
        none) := by
    simp [scanStep, pushAcc]
  have t6 : scanStep ⟨false, false, 1, some [':', '"', 'a', '"', '{'],
      [':', '"', 'a', '"', '{']⟩ '"' =
      (⟨true, false, 1, some ['"', ':', '"', 'a', '"', '{'], ['"', ':', '"', 'a', '"', '{']⟩,
        none) := by
    simp [scanStep, pushAcc]
  have t7 := scan_escStr cex3Str 1 (some ['"', ':', '"', 'a', '"', '{'])
    ['"', ':', '"', 'a', '"', '{']
  rw [hesc] at t7
  have hscan1 : scanFull initSt cex3Chunk1 =
      (⟨true, false, 1, some (cex3Str.reverse ++ ['"', ':', '"', 'a', '"', '{']),
        cex3Str.reverse ++ ['"', ':', '"', 'a', '"', '{']⟩, []) := by
    rw [show cex3Chunk1 = '{' :: '"' :: 'a' :: '"' :: ':' :: '"' :: cex3Str from rfl,
      scanFull_cons_none _ _ _ _ t1, scanFull_cons_none _ _ _ _ t2,
      scanFull_cons_none _ _ _ _ t3, scanFull_cons_none _ _ _ _ t4,
      scanFull_cons_none _ _ _ _ t5, scanFull_cons_none _ _ _ _ t6, t7]
    simp [revPush]
  have hlstr : cex3Str.length = 524288 := List.length_replicate _ _
  have hlen1 : cex3Chunk1.length = 524294 := by
    show ('{' :: '"' :: 'a' :: '"' :: ':' :: '"' :: cex3Str).length = 524294
    rw [List.length_cons, List.length_cons, List.length_cons, List.length_cons,
      List.length_cons, List.length_cons, hlstr]
  have hgt : MAX_BUF < 524294 := by norm_num [MAX_BUF]
  have hdrop : List.drop 6 cex3Chunk1 = cex3Str := rfl
  have h1 : extractJsonObjects cex3Chunk1 = ([], cex3Str) := by
    simp only [extractJsonObjects, hscan1]
    rw [show (cex3Str.reverse ++ ['"', ':', '"', 'a', '"', '{']).reverse = cex3Chunk1 from by
      show _ = '{' :: '"' :: 'a' :: '"' :: ':' :: '"' :: cex3Str
      simp]
    rw [capBuf_drop_oldest cex3Chunk1 (by rw [hlen1]; exact hgt), hlen1,
      show 524294 - MAX_BUF = 6 from by norm_num [MAX_BUF], hdrop]
  -- scanning chunk2 after the capped buffer: the x's are noise, the quote
  -- opens a string, the brace is inside it; nothing is emitted
  have hnx : ∀ c ∈ cex3Str, c ≠ '"' ∧ c ≠ '{' := by
    intro c hc
    simp only [cex3Str] at hc
    have hx := List.eq_of_mem_replicate hc
    subst hx
    decide
  have hA := scan_noiseList cex3Str hnx []
  have t8 : scanStep ⟨false, false, 0, none, cex3Str.reverse ++ []⟩ '"' =
      (⟨true, false, 0, none, '"' :: (cex3Str.reverse ++ [])⟩, none) := by
    simp [scanStep, pushAcc]
  have t9 : scanStep ⟨true, false, 0, none, '"' :: (cex3Str.reverse ++ [])⟩ '}' =
      (⟨true, false, 0, none, '}' :: '"' :: (cex3Str.reverse ++ [])⟩, none) := by
    simp [scanStep, pushAcc]
  have hB : scanFull ⟨false, false, 0, none, cex3Str.reverse ++ []⟩ cex3Chunk2 =
      (⟨true, false, 0, none, '}' :: '"' :: (cex3Str.reverse ++ [])⟩, []) := by
    rw [show cex3Chunk2 = '"' :: ['}'] from rfl, scanFull_cons_none _ _ _ _ t8,
      scanFull_single_none _ _ _ t9]
  have hC : scanFull initSt (cex3Str ++ cex3Chunk2) =
      (⟨true, false, 0, none, '}' :: '"' :: (cex3Str.reverse ++ [])⟩, []) := by
    exact scanFull_seq _ _ _ cex3Str cex3Chunk2 [] [] hA hB
  have h2 : (extractJsonObjects (cex3Str ++ cex3Chunk2)).1 = [] := by
    simp only [extractJsonObjects, hC]
  have h4 : (feedAll [cex3Chunk1, cex3Chunk2] []).1 = [] := by
    show (feedChunk [] cex3Chunk1).1 ++
      ((feedChunk (feedChunk [] cex3Chunk1).2 cex3Chunk2).1 ++ []) = []
    rw [feedChunk_ne [] cex3Chunk1 hc1ne, List.nil_append, h1]
    show ([] : List (List Char)) ++ ((feedChunk cex3Str cex3Chunk2).1 ++ []) = []
    rw [feedChunk_ne cex3Str cex3Chunk2 hc2ne, h2]
    rfl
  refine ⟨⟨hc1ne, hc2ne⟩, by simp [hser], by simp [cex3Obj, Json.wf, JsonFields.wf], h4, ?_⟩
  rw [h4]
  simp

/-- C4: after every append-and-extract pass the logical text buffer holds
at most `MAX_BUF` (512 KiB) characters — for one `handleTextChunk` call
and for any fold of chunks (in particular an unbounded noise stream) —
and on overflow the oldest characters are the ones dropped. -/
theorem claim4_bounded_buffer (s : Session) (c : List Char) (chunks : List (List Char))
    (r : List Char) (h : s.textBuf.length ≤ MAX_BUF) :
    (handleTextChunk s c).textBuf.length ≤ MAX_BUF ∧
    (feedChunks s chunks).textBuf.length ≤ MAX_BUF ∧
    (MAX_BUF < r.length → capBuf r = r.drop (r.length - MAX_BUF)) :=
  ⟨handleTextChunk_textBuf_le s c h, feedChunks_textBuf_le chunks s h,
   fun hr => capBuf_drop_oldest r hr⟩

theorem claim4_bounded_buffer_witness :
    (handleTextChunk ⟨[], none, true, []⟩ ("noise".data)).textBuf.length ≤ MAX_BUF ∧
    (feedChunks ⟨[], none, true, []⟩ ["aa".data, "bb".data]).textBuf.length ≤ MAX_BUF ∧
    capBuf (List.replicate 524289 'x') =
      (List.replicate 524289 'x').drop ((List.replicate 524289 'x').length - MAX_BUF) := by
  have h := claim4_bounded_buffer ⟨[], none, true, []⟩ ("noise".data)
    ["aa".data, "bb".data] (List.replicate 524289 'x') (by simp)
  exact ⟨h.1, h.2.1, h.2.2 (by rw [List.length_replicate]; norm_num [MAX_BUF])⟩

/-- C5 (counterexample to the claim as stated): a successfully parsed
object whose `type` is the string `"note"` — neither `entry` nor `done` —
is not passed through to the presentation layer: `emitObject` leaves the
session unchanged and appends nothing to the emitted-object list. -/
theorem claim5_emit_contract_cex :
    emitObject ⟨[], none, true, []⟩
        (Json.obj (JsonFields.cons ("type".data) (Json.str ("note".data)) JsonFields.nil)) =
      ⟨[], none, true, []⟩ ∧
    (emitObject ⟨[], none, true, []⟩
        (Json.obj (JsonFields.cons ("type".data) (Json.str ("note".data))
          JsonFields.nil))).entries ≠
      [Json.obj (JsonFields.cons ("type".data) (Json.str ("note".data)) JsonFields.nil)] := by
  have h1 : emitObject ⟨[], none, true, []⟩
      (Json.obj (JsonFields.cons ("type".data) (Json.str ("note".data)) JsonFields.nil)) =
      ⟨[], none, true, []⟩ := rfl
  refine ⟨h1, ?_⟩
  rw [h1]
  simp

/-- C5 (amended): `emitObject` appends an object to `entries` exactly when
its `type` is the string `entry`; a `type` of `done` only clears the
loading flag; every other parsed value — objects with other `type`
strings, with a non-string `type`, with no `type`, and non-objects — is
dropped without effect. -/
theorem claim5_emit_contract (s : Session) (j : Json) :
    (jsGet j ("type".data) = some (Json.str ("entry".data)) →
      emitObject s j = { s with entries := s.entries ++ [j] }) ∧
    (jsGet j ("type".data) = some (Json.str ("done".data)) →
      emitObject s j = { s with loading := false }) ∧
    (∀ t, jsGet j ("type".data) = some (Json.str t) → t ≠ "entry".data →
      t ≠ "done".data → emitObject s j = s) ∧
    ((∀ t, jsGet j ("type".data) ≠ some (Json.str t)) → emitObject s j = s) := by
  refine ⟨?_, ?_, ?_, ?_⟩
  · intro h
    unfold emitObject
    rw [h]
    simp
  · intro h
    unfold emitObject
    rw [h]
    simp
  · intro t h ht1 ht2
    unfold emitObject
    rw [h]
    simp [ht1, ht2]
  · intro h
    unfold emitObject
    cases hg : jsGet j ("type".data) with
    | none => rfl
    | some jv =>
      cases jv with
      | str t => exact absurd hg (h t)
      | null => rfl
      | bool b => rfl
      | num lex => rfl
      | arr items => rfl
      | obj fields => rfl

theorem claim5_emit_contract_witness :
    emitObject ⟨[], none, true, []⟩
        (Json.obj (JsonFields.cons ("type".data) (Json.str ("entry".data)) JsonFields.nil)) =
      ⟨[Json.obj (JsonFields.cons ("type".data) (Json.str ("entry".data)) JsonFields.nil)],
        none, true, []⟩ ∧
    emitObject ⟨[], none, true, []⟩
        (Json.obj (JsonFields.cons ("type".data) (Json.str ("done".data)) JsonFields.nil)) =
      ⟨[], none, false, []⟩ ∧
    emitObject ⟨[], none, true, []⟩
        (Json.obj (JsonFields.cons ("type".data) (Json.str ("meta".data)) JsonFields.nil)) =
      ⟨[], none, true, []⟩ ∧
    emitObject ⟨[], none, true, []⟩ (Json.str ("entry".data)) = ⟨[], none, true, []⟩ := by
  refine ⟨?_, ?_, ?_, ?_⟩
  · exact (claim5_emit_contract ⟨[], none, true, []⟩ _).1 (by decide)
  · exact (claim5_emit_contract ⟨[], none, true, []⟩ _).2.1 (by decide)
  · exact (claim5_emit_contract ⟨[], none, true, []⟩ _).2.2.1 ("meta".data) (by decide)
      (by decide) (by decide)
  · exact (claim5_emit_contract ⟨[], none, true, []⟩ _).2.2.2 (fun t => by simp [jsGet])

/-- C6: both terminal signals drive a loading session out of the Running
state without touching the error field: a frame whose data payload is the
literal `[DONE]` sentinel clears `loading` (and changes nothing else), and
a `response.completed` frame with a parseable payload clears `loading`
after flushing, leaving `error` as it was. -/
theorem claim6_terminal_detection (s : Session) (f1 f2 : List Char)
    (et : Option (List Char)) (ds : List Char) (evt : Json) (hload : s.loading = true)
    (h1 : parseFrameFields f1 = (et, "[DONE]".data))
    (h2 : parseFrameFields f2 = (some ("response.completed".data), ds))
    (hne : ds ≠ []) (hnd : ds ≠ "[DONE]".data) (hp : parseJson ds = some evt) :
    (dispatchFrame s f1 = { s with loading := false } ∧
      (dispatchFrame s f1).error = s.error) ∧
    ((dispatchFrame s f2).loading = false ∧ (dispatchFrame s f2).error = s.error) := by
  have e1 : dispatchFrame s f1 = { s with loading := false } := by
    simp only [dispatchFrame, h1]
    exact dispatchData_done_sentinel s et
  have e2 : dispatchFrame s f2 = { runExtract s with loading := false } := by
    simp only [dispatchFrame, h2]
    exact dispatchData_completed s ds evt hne hnd hp
  refine ⟨⟨e1, by rw [e1]⟩, by rw [e2], by rw [e2]; exact runExtract_error s⟩

theorem claim6_terminal_detection_witness :
    (dispatchFrame ⟨[], none, true, []⟩ ("data: [DONE]".data) =
      { entries := [], error := none, loading := false, textBuf := ([] : List Char) } ∧
      (dispatchFrame ⟨[], none, true, []⟩ ("data: [DONE]".data)).error = none) ∧
    ((dispatchFrame ⟨[], none, true, []⟩
        ("event: response.completed".data ++ '\n' :: "data: ".data ++ ['{', '}'])).loading =
      false ∧
     (dispatchFrame ⟨[], none, true, []⟩
        ("event: response.completed".data ++ '\n' :: "data: ".data ++ ['{', '}'])).error =
      none) :=
  claim6_terminal_detection ⟨[], none, true, []⟩ ("data: [DONE]".data)
    ("event: response.completed".data ++ '\n' :: "data: ".data ++ ['{', '}'])
    none ['{', '}'] (Json.obj JsonFields.nil) rfl (by decide) (by decide)
    (by decide) (by decide) (by decide)

/-- C7: on an end-of-output (`response.output_text.done`) or
end-of-response (`response.completed`) event with a parseable payload, the
dispatcher first flushes the buffered text through the JSON object
extractor — the resulting session is exactly `runExtract` of the current
one — and the completion event additionally clears `loading`. -/
theorem claim7_flush_on_terminal_events (s : Session) (f1 f2 : List Char)
    (ds1 ds2 : List Char) (evt1 evt2 : Json)
    (h1 : parseFrameFields f1 = (some ("response.output_text.done".data), ds1))
    (hne1 : ds1 ≠ []) (hnd1 : ds1 ≠ "[DONE]".data) (hp1 : parseJson ds1 = some evt1)
    (h2 : parseFrameFields f2 = (some ("response.completed".data), ds2))
    (hne2 : ds2 ≠ []) (hnd2 : ds2 ≠ "[DONE]".data) (hp2 : parseJson ds2 = some evt2) :
    dispatchFrame s f1 = runExtract s ∧
    dispatchFrame s f2 = { runExtract s with loading := false } := by
  constructor
  · simp only [dispatchFrame, h1]
    exact dispatchData_outdone s ds1 evt1 hne1 hnd1 hp1
  · simp only [dispatchFrame, h2]
    exact dispatchData_completed s ds2 evt2 hne2 hnd2 hp2

theorem claim7_flush_on_terminal_events_witness :
    dispatchFrame ⟨[], none, true, "xy".data⟩
        ("event: response.output_text.done".data ++ '\n' :: "data: ".data ++ ['{', '}']) =
      runExtract ⟨[], none, true, "xy".data⟩ ∧
    dispatchFrame ⟨[], none, true, "xy".data⟩
        ("event: response.completed".data ++ '\n' :: "data: ".data ++ ['{', '}']) =
      { runExtract ⟨[], none, true, "xy".data⟩ with loading := false } :=
  claim7_flush_on_terminal_events ⟨[], none, true, "xy".data⟩
    ("event: response.output_text.done".data ++ '\n' :: "data: ".data ++ ['{', '}'])
    ("event: response.completed".data ++ '\n' :: "data: ".data ++ ['{', '}'])
    ['{', '}'] ['{', '}'] (Json.obj JsonFields.nil) (Json.obj JsonFields.nil)
    (by decide) (by decide) (by decide) (by decide)
    (by decide) (by decide) (by decide) (by decide)

/-- C8: a stream start with an absent or empty credential, or a query that
is empty after trimming, is a complete no-op: the session state is
returned unchanged and no request is issued. -/
theorem claim8_empty_inputs_noop (apiKey : Option (List Char)) (query : List Char)
    (s : Session) (h : (apiKey = none ∨ apiKey = some []) ∨ trimWs query = []) :
    runStreamStart apiKey query s = (s, false) := by
  unfold runStreamStart
  rcases h with h | h
  · rw [if_pos h]
  · by_cases h2 : apiKey = none ∨ apiKey = some []
    · rw [if_pos h2]
    · rw [if_neg h2, if_pos h]

theorem claim8_empty_inputs_noop_witness :
    runStreamStart none ("dog".data) ⟨[], none, false, []⟩ =
      (⟨[], none, false, []⟩, false) ∧
    runStreamStart (some ("k".data)) ("  ".data) ⟨[], none, false, []⟩ =
      (⟨[], none, false, []⟩, false) :=
  ⟨claim8_empty_inputs_noop none ("dog".data) ⟨[], none, false, []⟩ (Or.inl (Or.inl rfl)),
   claim8_empty_inputs_noop (some ("k".data)) ("  ".data) ⟨[], none, false, []⟩
     (Or.inr (by decide))⟩

/-- C9: a thrown value that is an object whose `name` is `AbortError` —
what the abort of a cancelled session produces — leaves the session
entirely unchanged in the catch handler; in particular the error field is
never set. -/
theorem claim9_cancellation_not_error (s : Session) (e : JsThrown)
    (hobj : e.isObject = true) (hname : e.name = some ("AbortError".data)) :
    handleCatch s e = s ∧ (handleCatch s e).error = s.error := by
  have h : handleCatch s e = s := by
    unfold handleCatch
    rw [if_pos ⟨hobj, hname⟩]
  exact ⟨h, by rw [h]⟩

theorem claim9_cancellation_not_error_witness :
    handleCatch ⟨[], none, true, []⟩
        ⟨true, some ("AbortError".data), false, [], "AbortError".data⟩ =
      ⟨[], none, true, []⟩ ∧
    (handleCatch ⟨[], none, true, []⟩
        ⟨true, some ("AbortError".data), false, [], "AbortError".data⟩).error = none :=
  claim9_cancellation_not_error ⟨[], none, true, []⟩
    ⟨true, some ("AbortError".data), false, [], "AbortError".data⟩ rfl rfl

/-- C10: a close brace met outside a string at depth zero is skipped with
no effect on the scanner flags (the depth counter is guarded and never
goes below zero), the emitted objects of the rest of the buffer are
unaffected by such a stray brace, and a well-formed object following it is
still extracted in full. -/
theorem claim10_stray_close_brace (rest : List Char) (e : Bool) (p : List Char) :
    scanStep ⟨false, e, 0, none, p⟩ '}' = (⟨false, e, 0, none, '}' :: p⟩, none) ∧
    (extractJsonObjects ('}' :: rest)).1 = (extractJsonObjects rest).1 ∧
    (∀ fs, Json.wf (Json.obj fs) = true →
      extractJsonObjects ('}' :: ser (Json.obj fs)) = ([ser (Json.obj fs)], [])) := by
  refine ⟨by simp [scanStep], ?_, ?_⟩
  · simp only [extractJsonObjects]
    rw [scanFull_cons_none initSt ⟨false, false, 0, none, ['}']⟩ '}' rest
      (by simp [scanStep, initSt])]
    exact scanFull_snd_pending rest false false 0 none ['}'] []
  · intro fs hwf
    have h := extract_noise_obj ['}'] (by decide) fs hwf
    simpa using h

theorem claim10_stray_close_brace_witness :
    scanStep ⟨false, false, 0, none, []⟩ '}' =
      (⟨false, false, 0, none, ['}']⟩, none) ∧
    (extractJsonObjects ('}' :: "ab".data)).1 = (extractJsonObjects ("ab".data)).1 ∧
    extractJsonObjects ('}' :: ser (Json.obj JsonFields.nil)) =
      ([ser (Json.obj JsonFields.nil)], []) := by
  have h := claim10_stray_close_brace ("ab".data) false []
  exact ⟨h.1, h.2.1, h.2.2 JsonFields.nil rfl⟩

end RoastToast
